import Mathlib

/-!
Shallow embedding of `src/priority_queue/src/priority_queue.hpp` (namespace
`sjtu`), a pairing heap `priority_queue<T, Compare>`.

Modelling choices, each justified by the source:
* A `pq_node *` is either `nullptr` or points to a `pq_node {val, child,
  sibling}` that exclusively owns its `child` and `sibling` subgraphs (the
  facade never shares nodes between queues, and the algorithms never build
  back-pointers).  We therefore embed the pointer type as the inductive
  `pq_tree`, whose `nil` constructor is the null pointer.
* The comparator `Compare()(x, y)` is a function of the two values that either
  returns a `Bool` or throws an exception of an arbitrary type `E`; it is
  embedded as `α → α → Except E Bool`.
* The only exceptions thrown by the queue itself are `container_is_empty` and
  `runtime_error` (from `exceptions.hpp`), embedded as `PQError`.
* Mutating functions are embedded by explicit state passing.  In
  `meld_nodes` the comparator call is evaluated in the `if` condition, before
  the two pointer writes, so a throwing comparator leaves both inputs
  untouched; `merge_siblings` however severs sibling pointers *before* its
  melds, so on a throw its error value records the graph still reachable from
  the original `begin` pointer (the caller `pop` keeps `root->child` aimed at
  that node).
* `size_t raw_size_` is embedded as `Nat`; every claim below concerns states
  in which `raw_size_` equals the reachable node count, so the `size_t`
  wrap-around of `--raw_size_` at zero is never exercised.
-/

namespace sjtu

/-- A `pq_node *`: null, or a node owning a value, a child list head and a
sibling link (`struct pq_node` in the source). -/
inductive pq_tree (α : Type) : Type where
  | nil : pq_tree α
  | node (val : α) (child : pq_tree α) (sibling : pq_tree α) : pq_tree α
deriving DecidableEq, Repr

/-- The comparator object `Compare`: returns a `Bool` or throws an exception
of some type `E`. -/
abbrev Cmp (α E : Type) := α → α → Except E Bool

/-- The two exception kinds of `exceptions.hpp` used by `priority_queue.hpp`. -/
inductive PQError : Type where
  | container_is_empty : PQError
  | runtime_error : PQError
deriving DecidableEq, Repr

variable {α : Type} {E : Type}

/-- `meld_nodes` (source lines 49-66): null is an identity; otherwise compare
the two root values once; on `true` the first node becomes the new first child
of the second, on `false` symmetrically; a comparator throw is caught and
replaced by `runtime_error` before any pointer write happened. -/
def meld_nodes (cmp : Cmp α E) : pq_tree α → pq_tree α → Except PQError (pq_tree α)
  | .nil, b => .ok b
  | a, .nil => .ok a
  | .node va ca sa, .node vb cb sb =>
    match cmp va vb with
    | .error _ => .error .runtime_error
    | .ok true => .ok (.node vb (.node va ca cb) sb)
    | .ok false => .ok (.node va (.node vb cb ca) sa)

/-- `meld_nodes` again, with the error value carrying the two input graphs as
they stand at the throw point: the comparator is evaluated in the `if`
condition, before either pointer write, so the payload is the unchanged
inputs. -/
def meld_nodesM (cmp : Cmp α E) :
    pq_tree α → pq_tree α → Except (pq_tree α × pq_tree α) (pq_tree α)
  | .nil, b => .ok b
  | a, .nil => .ok a
  | .node va ca sa, .node vb cb sb =>
    match cmp va vb with
    | .error _ => .error (.node va ca sa, .node vb cb sb)
    | .ok true => .ok (.node vb (.node va ca cb) sb)
    | .ok false => .ok (.node va (.node vb cb ca) sa)

/-- `meld_nodes` once more, instrumented with the list of comparator
invocations (pairs of argument values): in the two null cases the comparator
is not called, otherwise it is called exactly once, throw or not. -/
def meld_nodesT (cmp : Cmp α E) :
    pq_tree α → pq_tree α → List (α × α) × Except PQError (pq_tree α)
  | .nil, b => ([], .ok b)
  | a, .nil => ([], .ok a)
  | .node va ca sa, .node vb cb sb =>
    ([(va, vb)],
      match cmp va vb with
      | .error _ => .error .runtime_error
      | .ok true => .ok (.node vb (.node va ca cb) sb)
      | .ok false => .ok (.node va (.node vb cb ca) sa))

/-- `compare_siblings` (source lines 70-82): walk the sibling chain, invoking
the comparator on each adjacent pair; a throw is caught and replaced by
`runtime_error`.  The function only reads the graph. -/
def compare_siblings (cmp : Cmp α E) : pq_tree α → Except PQError Unit
  | .nil => .ok ()
  | .node _ _ .nil => .ok ()
  | .node v _ (.node v2 c2 s2) =>
    match cmp v v2 with
    | .error _ => .error .runtime_error
    | .ok _ => compare_siblings cmp (.node v2 c2 s2)

/-- The graph reachable from the `begin` pointer of `merge_siblings` after its
first meld committed: if the comparator said `true`, `begin` lost and its
sibling pointer was redirected at the winner's former child list `c2`; if it
said `false`, `begin` won and now carries the sibling as its first child. -/
def begin_part (cmp : Cmp α E) (v : α) (c : pq_tree α) (v2 : α) (c2 : pq_tree α) :
    pq_tree α :=
  match cmp v v2 with
  | .ok true => .node v c c2
  | .ok false => .node v (.node v2 c2 c) .nil
  | .error _ => .node v c .nil

/-- `merge_siblings` (source lines 85-95): pairwise left-to-right
consolidation of a sibling chain.  Chains of length 0 or 1 are returned as
they are; otherwise the first two entries have their sibling pointers severed
and are melded, the rest of the chain is consolidated recursively, and the two
results are melded.  Any of the three steps may throw `runtime_error`; the
error value records the graph still reachable from the original `begin`
pointer at that moment (after `begin->sibling = nullptr` and possibly the
first meld), which is what the caller `pop` leaves installed under the old
root. -/
def merge_siblings (cmp : Cmp α E) : pq_tree α → Except (pq_tree α) (pq_tree α)
  | .nil => .ok .nil
  | .node v c .nil => .ok (.node v c .nil)
  | .node v c (.node v2 c2 rest) =>
    match meld_nodes cmp (.node v c .nil) (.node v2 c2 .nil) with
    | .error _ => .error (.node v c .nil)
    | .ok sas =>
      match merge_siblings cmp rest with
      | .error _ => .error (begin_part cmp v c v2 c2)
      | .ok rst =>
        match meld_nodes cmp sas rst with
        | .error _ => .error (begin_part cmp v c v2 c2)
        | .ok r => .ok r

/-- `recursive_dup` (source lines 26-33): structural clone of the graph at and
below (and right of) a node. -/
def recursive_dup : pq_tree α → pq_tree α
  | .nil => .nil
  | .node v c s => .node v (recursive_dup c) (recursive_dup s)

/-- Multiset of values stored in a graph. -/
def elems : pq_tree α → Multiset α
  | .nil => 0
  | .node v c s => v ::ₘ (elems c + elems s)

/-- Number of nodes reachable from a pointer via child/sibling traversal. -/
def tsize : pq_tree α → Nat
  | .nil => 0
  | .node _ c s => 1 + tsize c + tsize s

/-- Values along a sibling chain (the child list of a node is the sibling
chain hanging off its `child` pointer). -/
def chain_vals : pq_tree α → List α
  | .nil => []
  | .node v _ s => v :: chain_vals s

/-- `true` unless the comparator returns `ok true` on `(v, w)`, i.e. unless it
reports `w` as strictly preceding `v` in priority. -/
def cmp_not_true (cmp : Cmp α E) (v w : α) : Bool :=
  match cmp v w with
  | .ok true => false
  | _ => true

/-- Heap order of a child list: every entry `w` of the sibling chain satisfies
`cmp v w ≠ ok true` (the parent `v` is not reported worse than `w`), and every
entry's own child list is heap ordered below it. -/
def heap_chain (cmp : Cmp α E) (v : α) : pq_tree α → Bool
  | .nil => true
  | .node w c s => cmp_not_true cmp v w && heap_chain cmp w c && heap_chain cmp v s

/-- Heap order of a whole graph viewed from a root pointer (the root's own
sibling link is not constrained here). -/
def is_heap (cmp : Cmp α E) : pq_tree α → Bool
  | .nil => true
  | .node v c _ => heap_chain cmp v c

/-- Every entry of a sibling chain is internally heap ordered (no bound
relating the entries to each other). -/
def chain_heaps (cmp : Cmp α E) : pq_tree α → Bool
  | .nil => true
  | .node v c s => heap_chain cmp v c && chain_heaps cmp s

/-- The root pointer has no dangling sibling. -/
def sib_nil : pq_tree α → Bool
  | .nil => true
  | .node _ _ .nil => true
  | .node _ _ (.node _ _ _) => false

/-- A settled heap: no dangling sibling at the root and heap order throughout. -/
def settled (cmp : Cmp α E) : pq_tree α → Bool
  | .nil => true
  | .node v c .nil => heap_chain cmp v c
  | .node _ _ (.node _ _ _) => false

/-- The facade `priority_queue`: owned root pointer plus element count. -/
structure priority_queue (α : Type) : Type where
  root : pq_tree α := .nil
  raw_size : Nat := 0
deriving DecidableEq, Repr

/-- Default construction: `root = nullptr`, `raw_size_ = 0`. -/
def mk_default : priority_queue α := {}

/-- `top` (source lines 155-160): value at the root, or `container_is_empty`. -/
def top (q : priority_queue α) : Except PQError α :=
  match q.root with
  | .nil => .error .container_is_empty
  | .node v _ _ => .ok v

/-- `size` (source lines 198-200). -/
def size (q : priority_queue α) : Nat :=
  q.raw_size

/-- `empty` (source lines 206-208). -/
def empty (q : priority_queue α) : Bool :=
  match q.root with
  | .nil => true
  | .node _ _ _ => false

/-- `push` (source lines 166-176): meld a fresh singleton node with the root;
increment the count only afterwards.  If the meld throws, the singleton is
deleted and `runtime_error` is re-signalled; the meld threw before any pointer
write, so root and count are unchanged. -/
def push (cmp : Cmp α E) (q : priority_queue α) (e : α) :
    Except PQError Unit × priority_queue α :=
  match meld_nodes cmp q.root (.node e .nil .nil) with
  | .error _ => (.error .runtime_error, q)
  | .ok r => (.ok (), ⟨r, q.raw_size + 1⟩)

/-- `pop` (source lines 182-192): `container_is_empty` on a null root;
otherwise validate the child chain with `compare_siblings` (throw leaves the
queue untouched), then consolidate it with `merge_siblings`.  A throw out of
the consolidation escapes `pop` with the root still installed, its child
pointer still aimed at the partially mutated chain recorded by
`merge_siblings`, and the count not yet decremented.  On success the old root
is deleted, the consolidation result becomes the root, and the count drops. -/
def pop (cmp : Cmp α E) (q : priority_queue α) :
    Except PQError Unit × priority_queue α :=
  match q.root with
  | .nil => (.error .container_is_empty, q)
  | .node v c s =>
    match compare_siblings cmp c with
    | .error e => (.error e, q)
    | .ok _ =>
      match merge_siblings cmp c with
      | .error corrupt => (.error .runtime_error, ⟨.node v corrupt s, q.raw_size⟩)
      | .ok r => (.ok (), ⟨r, q.raw_size - 1⟩)

/-- `merge` (source lines 216-221): meld the two roots (a throw leaves both
queues untouched, since the meld throws before any pointer write and neither
assignment has executed); on success this queue owns the melded graph and the
summed count, and `other` is emptied. -/
def merge (cmp : Cmp α E) (a b : priority_queue α) :
    Except PQError Unit × priority_queue α × priority_queue α :=
  match meld_nodes cmp a.root b.root with
  | .error _ => (.error .runtime_error, a, b)
  | .ok r => (.ok (), ⟨r, a.raw_size + b.raw_size⟩, ⟨.nil, 0⟩)

/-- Copy assignment (source lines 137-148): the guard `root == other.root` is
a raw pointer comparison; between two queues that share no node (the
single-ownership discipline of the container) it holds exactly when both
roots are null.  Past the guard the old graph is released and
`other.root->recursive_dup()` is called unconditionally — a null dereference
when `other` is empty, embedded as `none`. -/
def copy_assign (thisq other : priority_queue α) : Option (priority_queue α) :=
  match thisq.root, other.root with
  | .nil, .nil => some thisq
  | _, .nil => none
  | _, _ => some ⟨recursive_dup other.root, other.raw_size⟩

/-- Copy construction (source lines 110-120): the destination's members start
as `root = nullptr`, `raw_size_ = 0`, so the guard fires exactly when the
source is empty, and the early return leaves the defaults in place. -/
def copy_construct (other : priority_queue α) : Option (priority_queue α) :=
  match other.root with
  | .nil => some ⟨.nil, 0⟩
  | _ => some ⟨recursive_dup other.root, other.raw_size⟩

/-- The queue's documented bookkeeping invariant between public operations:
heap order, no dangling sibling at the root, and `raw_size_` equal to the
number of reachable nodes. -/
def QInvB (cmp : Cmp α E) (q : priority_queue α) : Bool :=
  settled cmp q.root && (q.raw_size == tsize q.root)

/-- Asymmetry of the comparator's positive verdicts: it never reports each of
two values as strictly preceding the other. -/
def Asym (cmp : Cmp α E) : Prop :=
  ∀ a b, cmp a b = .ok true → cmp b a ≠ .ok true

/-- Negative transitivity: failures to strictly precede compose, as for any
strict weak order. -/
def NegTrans (cmp : Cmp α E) : Prop :=
  ∀ a b c, cmp a b ≠ .ok true → cmp b c ≠ .ok true → cmp a c ≠ .ok true

/-- Queue states reachable from default construction through successful
public operations (`push`, `pop`, and `merge` with another reachable,
non-aliased queue — either end of the merge). -/
inductive Reach (cmp : Cmp α E) : priority_queue α → Prop where
  | init : Reach cmp ⟨.nil, 0⟩
  | push_ok (q : priority_queue α) (e : α) (q2 : priority_queue α) :
      Reach cmp q → push cmp q e = (.ok (), q2) → Reach cmp q2
  | pop_ok (q q2 : priority_queue α) :
      Reach cmp q → pop cmp q = (.ok (), q2) → Reach cmp q2
  | merge_ok (a b a2 b2 : priority_queue α) :
      Reach cmp a → Reach cmp b → merge cmp a b = (.ok (), a2, b2) → Reach cmp a2
  | merge_src (a b a2 b2 : priority_queue α) :
      Reach cmp a → Reach cmp b → merge cmp a b = (.ok (), a2, b2) → Reach cmp b2

/-- A node graph in which every node carries the heap address it was
allocated at (used to reason about sharing between an original and its
`recursive_dup`). -/
inductive atree (α : Type) : Type where
  | nil : atree α
  | node (addr : Nat) (val : α) (child : atree α) (sibling : atree α) : atree α
deriving DecidableEq, Repr

/-- Allocation semantics of `recursive_dup`: the duplicate of a node is a
fresh `new pq_node` (here: the next free address `n`), then the child is
duplicated, then the sibling.  Returns the duplicate and the next free
address. -/
def recursive_dupA : pq_tree α → Nat → atree α × Nat
  | .nil, n => (.nil, n)
  | .node v c s, n =>
    let pc := recursive_dupA c (n + 1)
    let ps := recursive_dupA s pc.2
    (.node n v pc.1 ps.1, ps.2)

/-- Forget the addresses of an addressed graph. -/
def strip : atree α → pq_tree α
  | .nil => .nil
  | .node _ v c s => .node v (strip c) (strip s)

/-- Addresses occurring in an addressed graph. -/
def addrsA : atree α → List Nat
  | .nil => []
  | .node a _ c s => a :: (addrsA c ++ addrsA s)

/-- A total order comparator on naturals that never throws (the default
`std::less<int>` instantiation). -/
def cmpNat : Cmp Nat Unit :=
  fun a b => .ok (decide (a < b))

/-- A comparator that orders naturals descendingly but throws exactly on the
argument pair `(3, 5)` — a pair `compare_siblings` never tests on the chain
`3, 4, 5` but `merge_siblings` does. -/
def cmpBug : Cmp Nat Unit :=
  fun a b => if a = 3 ∧ b = 5 then .error () else .ok (decide (b < a))

/-- The sibling chain `3, 4, 5` (childless entries). -/
def ch345 : pq_tree Nat :=
  .node 3 .nil (.node 4 .nil (.node 5 .nil .nil))

/-- A four-element queue, heap ordered under `cmpBug` (which treats smaller
values as higher priority): root `1` whose child list is the chain `3, 4, 5`. -/
def q_bug : priority_queue Nat :=
  ⟨.node 1 ch345 .nil, 4⟩

/-- The state `pop cmpBug q_bug` leaves behind when its merge pass throws:
nodes `3` and `4` were melded and remain reachable through the old root, but
node `5` is no longer reachable while `raw_size_` still counts it. -/
def q_bug_after : priority_queue Nat :=
  ⟨.node 1 (.node 3 (.node 4 .nil .nil) .nil) .nil, 4⟩

/-! ### Helper lemmas -/

theorem cmp_not_true_eq_true {cmp : Cmp α E} {v w : α} :
    cmp_not_true cmp v w = true ↔ cmp v w ≠ .ok true := by
  unfold cmp_not_true
  cases h : cmp v w with
  | error e => simp
  | ok b => cases b <;> simp

theorem asym_irrefl {cmp : Cmp α E} (hasym : Asym cmp) (a : α) :
    cmp a a ≠ .ok true := by
  intro h
  exact hasym a a h h

theorem meld_nil_left {cmp : Cmp α E} (b : pq_tree α) :
    meld_nodes cmp .nil b = .ok b := by
  cases b <;> rfl

theorem meld_nil_right {cmp : Cmp α E} (a : pq_tree α) :
    meld_nodes cmp a .nil = .ok a := by
  cases a <;> rfl

theorem meld_settled {cmp : Cmp α E} (hasym : Asym cmp) :
    ∀ {a b r : pq_tree α}, settled cmp a = true → settled cmp b = true →
      meld_nodes cmp a b = .ok r →
      settled cmp r = true ∧ elems r = elems a + elems b := by
  intro a b r ha hb hm
  match a, b with
  | .nil, b =>
    rw [meld_nil_left] at hm
    cases hm
    simpa [elems] using hb
  | .node va ca sa, .nil =>
    rw [meld_nil_right] at hm
    cases hm
    simpa [elems] using ha
  | .node va ca sa, .node vb cb sb =>
    cases sa with
    | node x y z => simp [settled] at ha
    | nil =>
    cases sb with
    | node x y z => simp [settled] at hb
    | nil =>
    simp only [settled] at ha hb
    simp only [meld_nodes] at hm
    cases hc : cmp va vb with
    | error e => simp [hc] at hm
    | ok bl =>
      simp only [hc] at hm
      cases bl with
      | true =>
        simp only [Except.ok.injEq] at hm
        subst hm
        constructor
        · simp only [settled, heap_chain, Bool.and_eq_true]
          exact ⟨⟨cmp_not_true_eq_true.mpr (hasym _ _ hc), ha⟩, hb⟩
        · simp only [elems, add_zero, ← Multiset.singleton_add]
          abel
      | false =>
        simp only [Except.ok.injEq] at hm
        subst hm
        constructor
        · simp only [settled, heap_chain, Bool.and_eq_true]
          refine ⟨⟨cmp_not_true_eq_true.mpr ?_, hb⟩, ha⟩
          simp [hc]
        · simp only [elems, add_zero, ← Multiset.singleton_add]
          abel

theorem chain_heaps_of_heap_chain {cmp : Cmp α E} :
    ∀ {v : α} {t : pq_tree α}, heap_chain cmp v t = true →
      chain_heaps cmp t = true := by
  intro v t
  induction t generalizing v with
  | nil => intro _; rfl
  | node w c s ihc ihs =>
    intro h
    simp only [heap_chain, Bool.and_eq_true] at h
    simp only [chain_heaps, Bool.and_eq_true]
    exact ⟨h.1.2, ihs h.2⟩

theorem tsize_eq_card (t : pq_tree α) :
    tsize t = Multiset.card (elems t) := by
  induction t with
  | nil => rfl
  | node v c s ihc ihs =>
    simp only [tsize, elems, Multiset.card_cons, Multiset.card_add, ihc, ihs]
    omega

theorem heap_chain_max {cmp : Cmp α E} (hnt : NegTrans cmp) :
    ∀ {v : α} {t : pq_tree α}, heap_chain cmp v t = true →
      ∀ x ∈ elems t, cmp v x ≠ .ok true := by
  intro v t
  induction t generalizing v with
  | nil => intro _ x hx; simp [elems] at hx
  | node w c s ihc ihs =>
    intro h x hx
    simp only [heap_chain, Bool.and_eq_true] at h
    obtain ⟨⟨hvw, hwc⟩, hvs⟩ := h
    simp only [elems, Multiset.mem_cons, Multiset.mem_add] at hx
    rcases hx with rfl | hx | hx
    · exact cmp_not_true_eq_true.mp hvw
    · exact hnt v w x (cmp_not_true_eq_true.mp hvw) (ihc hwc x hx)
    · exact ihs hvs x hx

theorem merge_siblings_ok {cmp : Cmp α E} (hasym : Asym cmp) :
    ∀ (ch r : pq_tree α), chain_heaps cmp ch = true →
      merge_siblings cmp ch = .ok r →
      settled cmp r = true ∧ elems r = elems ch
  | .nil, r, _, hm => by
    simp only [merge_siblings, Except.ok.injEq] at hm
    subst hm
    exact ⟨rfl, rfl⟩
  | .node v c .nil, r, hch, hm => by
    simp only [merge_siblings, Except.ok.injEq] at hm
    subst hm
    simp only [chain_heaps, Bool.and_eq_true] at hch
    exact ⟨by simp [settled, hch.1], rfl⟩
  | .node v c (.node v2 c2 rest), r, hch, hm => by
    simp only [merge_siblings] at hm
    simp only [chain_heaps, Bool.and_eq_true] at hch
    obtain ⟨hvc, hv2c2, hrest⟩ := hch
    cases h1 : meld_nodes cmp (.node v c .nil) (.node v2 c2 .nil) with
    | error e => simp [h1] at hm
    | ok sas =>
      simp only [h1] at hm
      cases h2 : merge_siblings cmp rest with
      | error t => simp [h2] at hm
      | ok rst =>
        simp only [h2] at hm
        cases h3 : meld_nodes cmp sas rst with
        | error e => simp [h3] at hm
        | ok r2 =>
          simp only [h3, Except.ok.injEq] at hm
          subst hm
          have hsas := meld_settled hasym (by simp [settled, hvc])
            (by simp [settled, hv2c2]) h1
          have hrst := merge_siblings_ok hasym rest rst hrest h2
          have hr := meld_settled hasym hsas.1 hrst.1 h3
          refine ⟨hr.1, ?_⟩
          rw [hr.2, hsas.2, hrst.2]
          simp only [elems, add_zero, ← Multiset.singleton_add]
          abel

theorem reach_inv {cmp : Cmp α E} (hasym : Asym cmp) :
    ∀ {q : priority_queue α}, Reach cmp q → QInvB cmp q = true := by
  intro q hr
  induction hr with
  | init => rfl
  | push_ok q e q2 hq hpush ih =>
    simp only [QInvB, Bool.and_eq_true, beq_iff_eq] at ih
    simp only [push] at hpush
    cases hm : meld_nodes cmp q.root (.node e .nil .nil) with
    | error er => simp [hm] at hpush
    | ok r =>
      simp only [hm, Prod.mk.injEq] at hpush
      obtain ⟨-, hq2⟩ := hpush
      subst hq2
      have hs := meld_settled hasym ih.1 (by rfl) hm
      simp only [QInvB, Bool.and_eq_true, beq_iff_eq]
      refine ⟨hs.1, ?_⟩
      have := tsize_eq_card (α := α) r
      rw [this, hs.2]
      simp only [Multiset.card_add]
      rw [← tsize_eq_card]
      simp [elems, ih.2]
  | pop_ok q q2 hq hpop ih =>
    simp only [QInvB, Bool.and_eq_true, beq_iff_eq] at ih
    simp only [pop] at hpop
    cases hroot : q.root with
    | nil => simp [hroot] at hpop
    | node v c s =>
      simp only [hroot] at hpop
      rw [hroot] at ih
      cases s with
      | node x y z => simp [settled] at ih
      | nil =>
      simp only [settled] at ih
      cases hcs : compare_siblings cmp c with
      | error e => simp [hcs] at hpop
      | ok u =>
        simp only [hcs] at hpop
        cases hms : merge_siblings cmp c with
        | error t => simp [hms] at hpop
        | ok r =>
          simp only [hms, Prod.mk.injEq] at hpop
          obtain ⟨-, hq2⟩ := hpop
          subst hq2
          have hr := merge_siblings_ok hasym c r
            (chain_heaps_of_heap_chain ih.1) hms
          simp only [QInvB, Bool.and_eq_true, beq_iff_eq]
          refine ⟨hr.1, ?_⟩
          have h3 : tsize r = tsize c := by
            rw [tsize_eq_card, hr.2, ← tsize_eq_card]
          rw [ih.2, h3]
          simp only [tsize]
          omega
  | merge_ok a b a2 b2 ha hb hm iha ihb =>
    simp only [QInvB, Bool.and_eq_true, beq_iff_eq] at iha ihb
    simp only [merge] at hm
    cases hme : meld_nodes cmp a.root b.root with
    | error e => simp [hme] at hm
    | ok r =>
      simp only [hme, Prod.mk.injEq] at hm
      obtain ⟨-, hA, hB⟩ := hm
      subst hA
      have hs := meld_settled hasym iha.1 ihb.1 hme
      simp only [QInvB, Bool.and_eq_true, beq_iff_eq]
      refine ⟨hs.1, ?_⟩
      have h3 : tsize r = tsize a.root + tsize b.root := by
        rw [tsize_eq_card, hs.2, Multiset.card_add, ← tsize_eq_card, ← tsize_eq_card]
      rw [h3, iha.2, ihb.2]
  | merge_src a b a2 b2 ha hb hm iha ihb =>
    simp only [merge] at hm
    cases hme : meld_nodes cmp a.root b.root with
    | error e => simp [hme] at hm
    | ok r =>
      simp only [hme, Prod.mk.injEq] at hm
      obtain ⟨-, hA, hB⟩ := hm
      subst hB
      rfl

theorem meld_elems_sibnil {cmp : Cmp α E} :
    ∀ {a b r : pq_tree α}, sib_nil a = true → sib_nil b = true →
      meld_nodes cmp a b = .ok r → elems r = elems a + elems b := by
  intro a b r ha hb hm
  match a, b with
  | .nil, b =>
    rw [meld_nil_left] at hm
    cases hm
    simp [elems]
  | .node va ca sa, .nil =>
    rw [meld_nil_right] at hm
    cases hm
    simp [elems]
  | .node va ca sa, .node vb cb sb =>
    cases sa with
    | node x y z => simp [sib_nil] at ha
    | nil =>
    cases sb with
    | node x y z => simp [sib_nil] at hb
    | nil =>
    simp only [meld_nodes] at hm
    cases hc : cmp va vb with
    | error e => simp [hc] at hm
    | ok bl =>
      simp only [hc] at hm
      cases bl with
      | true =>
        simp only [Except.ok.injEq] at hm
        subst hm
        simp only [elems, add_zero, ← Multiset.singleton_add]
        abel
      | false =>
        simp only [Except.ok.injEq] at hm
        subst hm
        simp only [elems, add_zero, ← Multiset.singleton_add]
        abel

theorem compare_siblings_error {cmp : Cmp α E} :
    ∀ {t : pq_tree α} {r : PQError},
      compare_siblings cmp t = .error r → r = .runtime_error := by
  intro t
  induction t with
  | nil => intro r h; simp [compare_siblings] at h
  | node v c s ihc ihs =>
    intro r h
    cases s with
    | nil => simp [compare_siblings] at h
    | node v2 c2 s2 =>
      simp only [compare_siblings] at h
      cases hc : cmp v v2 with
      | error e =>
        simp only [hc, Except.error.injEq] at h
        exact h.symm
      | ok bl =>
        simp only [hc] at h
        exact ihs h

theorem meld_nodes_error {cmp : Cmp α E} :
    ∀ {a b : pq_tree α} {r : PQError},
      meld_nodes cmp a b = .error r → r = .runtime_error := by
  intro a b r h
  match a, b with
  | .nil, b => rw [meld_nil_left] at h; cases h
  | .node va ca sa, .nil => rw [meld_nil_right] at h; cases h
  | .node va ca sa, .node vb cb sb =>
    simp only [meld_nodes] at h
    cases hc : cmp va vb with
    | error e =>
      simp only [hc, Except.error.injEq] at h
      exact h.symm
    | ok bl => cases bl <;> simp [hc] at h

theorem elems_eq_zero_iff {t : pq_tree α} : elems t = 0 ↔ t = .nil := by
  cases t <;> simp [elems]

theorem settled_root_max {cmp : Cmp α E} (hasym : Asym cmp) (hnt : NegTrans cmp) :
    ∀ {v : α} {c s : pq_tree α}, settled cmp (.node v c s) = true →
      ∀ x ∈ elems (pq_tree.node v c s), cmp v x ≠ .ok true := by
  intro v c s hs x hx
  cases s with
  | node a y z => simp [settled] at hs
  | nil =>
    simp only [settled] at hs
    simp only [elems, Multiset.mem_cons, Multiset.mem_add] at hx
    rcases hx with rfl | hx | hx
    · exact asym_irrefl hasym x
    · exact heap_chain_max hnt hs x hx
    · simp [elems] at hx

theorem recursive_dup_id : ∀ t : pq_tree α, recursive_dup t = t := by
  intro t
  induction t with
  | nil => rfl
  | node v c s ihc ihs => simp [recursive_dup, ihc, ihs]

theorem recursive_dupA_spec :
    ∀ (t : pq_tree α) (n : Nat),
      strip (recursive_dupA t n).1 = t ∧
      n ≤ (recursive_dupA t n).2 ∧
      (∀ a ∈ addrsA (recursive_dupA t n).1, n ≤ a ∧ a < (recursive_dupA t n).2) := by
  intro t
  induction t with
  | nil => intro n; simp [recursive_dupA, strip, addrsA]
  | node v c s ihc ihs =>
    intro n
    have heq : recursive_dupA (pq_tree.node v c s) n
        = (.node n v (recursive_dupA c (n + 1)).1
             (recursive_dupA s (recursive_dupA c (n + 1)).2).1,
           (recursive_dupA s (recursive_dupA c (n + 1)).2).2) := rfl
    rw [heq]
    obtain ⟨hc1, hc2, hc3⟩ := ihc (n + 1)
    obtain ⟨hs1, hs2, hs3⟩ := ihs (recursive_dupA c (n + 1)).2
    refine ⟨by simp [strip, hc1, hs1], by omega, ?_⟩
    intro a ha
    simp only [addrsA, List.mem_cons, List.mem_append] at ha
    rcases ha with rfl | ha | ha
    · omega
    · have := hc3 a ha; omega
    · have := hs3 a ha; omega

theorem cmpNat_asym : Asym cmpNat := by
  intro a b h1 h2
  simp only [cmpNat, ne_eq, Except.ok.injEq, decide_eq_true_eq] at h1 h2
  omega

theorem cmpNat_negtrans : NegTrans cmpNat := by
  intro a b c h1 h2 h3
  simp only [cmpNat, ne_eq, Except.ok.injEq, decide_eq_true_eq] at h1 h2 h3
  omega

/-! ### Claim theorems -/

/-- Claim C1 (refuted; the code contradicts its own exception-safety doc):
on the sibling chain `3, 4, 5` the validation pass succeeds — it compares
only the adjacent pairs `(3,4)` and `(4,5)` — yet the merge pass still
throws, because it melds the winner `3` of the first pair with `5`, calling
the comparator on the untested pair `(3,5)`; the error state it leaves behind
has node `5` severed from the chain. -/
theorem claim_C1_validation_gap :
    compare_siblings cmpBug ch345 = .ok () ∧
    merge_siblings cmpBug ch345 = .error (.node 3 (.node 4 .nil .nil) .nil) :=
  ⟨rfl, rfl⟩

/-- Claim C2: `meld_nodes` returns the other input unchanged when either is
null; otherwise it invokes the comparator exactly once (witnessed by the
instrumented call trace), prepends the loser to the winner's child list — the
loser's sibling link becomes the winner's previous first child and the loser
becomes the winner's new first child — and returns the winner as the new
subtree root. -/
theorem claim_C2_meld (cmp : Cmp α E) :
    (∀ b : pq_tree α, meld_nodes cmp .nil b = .ok b) ∧
    (∀ a : pq_tree α, meld_nodes cmp a .nil = .ok a) ∧
    (∀ (va : α) (ca sa : pq_tree α) (vb : α) (cb sb : pq_tree α),
      (meld_nodesT cmp (.node va ca sa) (.node vb cb sb)).1 = [(va, vb)] ∧
      (meld_nodesT cmp (.node va ca sa) (.node vb cb sb)).2
        = meld_nodes cmp (.node va ca sa) (.node vb cb sb)) ∧
    (∀ (va : α) (ca sa : pq_tree α) (vb : α) (cb sb : pq_tree α),
      cmp va vb = .ok true →
      meld_nodes cmp (.node va ca sa) (.node vb cb sb)
        = .ok (.node vb (.node va ca cb) sb) ∧
      chain_vals (pq_tree.node va ca cb) = va :: chain_vals cb) ∧
    (∀ (va : α) (ca sa : pq_tree α) (vb : α) (cb sb : pq_tree α),
      cmp va vb = .ok false →
      meld_nodes cmp (.node va ca sa) (.node vb cb sb)
        = .ok (.node va (.node vb cb ca) sa) ∧
      chain_vals (pq_tree.node vb cb ca) = vb :: chain_vals ca) := by
  refine ⟨meld_nil_left, meld_nil_right, ?_, ?_, ?_⟩
  · intro va ca sa vb cb sb
    exact ⟨rfl, rfl⟩
  · intro va ca sa vb cb sb h
    exact ⟨by simp [meld_nodes, h], rfl⟩
  · intro va ca sa vb cb sb h
    exact ⟨by simp [meld_nodes, h], rfl⟩

/-- Witness for C2 at a concrete input. -/
theorem claim_C2_meld_w :
    cmpNat 1 2 = .ok true ∧
    meld_nodes cmpNat (.node 1 .nil .nil) (.node 2 .nil .nil)
      = .ok (.node 2 (.node 1 .nil .nil) .nil) :=
  ⟨rfl, ((claim_C2_meld cmpNat).2.2.2.1 1 .nil .nil 2 .nil .nil rfl).1⟩

/-- Claim C3: for non-aliased queues satisfying the bookkeeping invariant,
a successful `merge` empties the source, sums the counts, and leaves the
union of the elements in the destination with a top that no element of the
union strictly precedes; a failed meld leaves both queues exactly as they
were. -/
theorem claim_C3_merge (cmp : Cmp α E) (hasym : Asym cmp) (hnt : NegTrans cmp)
    (A B : priority_queue α) (hA : QInvB cmp A = true) (hB : QInvB cmp B = true) :
    (∀ A2 B2, merge cmp A B = (.ok (), A2, B2) →
      B2.root = .nil ∧ B2.raw_size = 0 ∧
      A2.raw_size = A.raw_size + B.raw_size ∧
      elems A2.root = elems A.root + elems B.root ∧
      ((A.root ≠ .nil ∨ B.root ≠ .nil) → ∃ v, top A2 = .ok v) ∧
      (∀ v, top A2 = .ok v → v ∈ elems A2.root ∧
        ∀ x ∈ elems A2.root, cmp v x ≠ .ok true)) ∧
    (∀ e A2 B2, merge cmp A B = (.error e, A2, B2) → A2 = A ∧ B2 = B) := by
  simp only [QInvB, Bool.and_eq_true, beq_iff_eq] at hA hB
  constructor
  · intro A2 B2 hm
    simp only [merge] at hm
    cases hme : meld_nodes cmp A.root B.root with
    | error e => simp [hme] at hm
    | ok r =>
      simp only [hme, Prod.mk.injEq] at hm
      obtain ⟨-, hA2, hB2⟩ := hm
      subst hA2
      subst hB2
      have hs := meld_settled hasym hA.1 hB.1 hme
      refine ⟨rfl, rfl, rfl, hs.2, ?_, ?_⟩
      · intro hne
        have hcard : Multiset.card (elems r)
            = Multiset.card (elems A.root) + Multiset.card (elems B.root) := by
          rw [hs.2, Multiset.card_add]
        have hrne : r ≠ .nil := by
          intro h0
          rw [h0] at hcard
          simp only [elems, Multiset.card_zero] at hcard
          rcases hne with hne | hne
          · exact hne (elems_eq_zero_iff.mp (Multiset.card_eq_zero.mp (by omega)))
          · exact hne (elems_eq_zero_iff.mp (Multiset.card_eq_zero.mp (by omega)))
        cases hr2 : r with
        | nil => exact absurd hr2 hrne
        | node w c s => exact ⟨w, by simp [top, hr2]⟩
      · intro v hv
        cases hr2 : r with
        | nil => simp [top, hr2] at hv
        | node w c s =>
          simp only [top, hr2, Except.ok.injEq] at hv
          subst hv
          have hst := hs.1
          rw [hr2] at hst
          constructor
          · simp [hr2, elems]
          · intro x hx
            exact settled_root_max hasym hnt hst x hx
  · intro e A2 B2 hm
    simp only [merge] at hm
    cases hme : meld_nodes cmp A.root B.root with
    | error e2 =>
      simp only [hme, Prod.mk.injEq] at hm
      exact ⟨hm.2.1.symm, hm.2.2.symm⟩
    | ok r => simp [hme] at hm

/-- Witness for C3 at concrete one-element queues. -/
theorem claim_C3_merge_w :
    (⟨.nil, 0⟩ : priority_queue Nat).root = pq_tree.nil ∧
    (⟨.nil, 0⟩ : priority_queue Nat).raw_size = 0 ∧
    (⟨.node 2 (.node 1 .nil .nil) .nil, 2⟩ : priority_queue Nat).raw_size
      = (⟨.node 2 .nil .nil, 1⟩ : priority_queue Nat).raw_size
        + (⟨.node 1 .nil .nil, 1⟩ : priority_queue Nat).raw_size ∧
    elems (⟨.node 2 (.node 1 .nil .nil) .nil, 2⟩ : priority_queue Nat).root
      = elems (⟨.node 2 .nil .nil, 1⟩ : priority_queue Nat).root
        + elems (⟨.node 1 .nil .nil, 1⟩ : priority_queue Nat).root ∧
    (((⟨.node 2 .nil .nil, 1⟩ : priority_queue Nat).root ≠ .nil ∨
        (⟨.node 1 .nil .nil, 1⟩ : priority_queue Nat).root ≠ .nil) →
      ∃ v, top (⟨.node 2 (.node 1 .nil .nil) .nil, 2⟩ : priority_queue Nat) = .ok v) ∧
    (∀ v, top (⟨.node 2 (.node 1 .nil .nil) .nil, 2⟩ : priority_queue Nat) = .ok v →
      v ∈ elems (⟨.node 2 (.node 1 .nil .nil) .nil, 2⟩ : priority_queue Nat).root ∧
      ∀ x ∈ elems (⟨.node 2 (.node 1 .nil .nil) .nil, 2⟩ : priority_queue Nat).root,
        cmpNat v x ≠ .ok true) :=
  (claim_C3_merge cmpNat cmpNat_asym cmpNat_negtrans
    ⟨.node 2 .nil .nil, 1⟩ ⟨.node 1 .nil .nil, 1⟩ rfl rfl).1 _ _ rfl

/-- Claim C4: in every state reachable by successful public operations under
an asymmetric comparator, the settled heap is heap ordered (no node's child
is reported as strictly preceding it), and — with negative transitivity —
`top` returns a value that no element of the queue strictly precedes. -/
theorem claim_C4_heap_order (cmp : Cmp α E) (hasym : Asym cmp) (hnt : NegTrans cmp)
    (q : priority_queue α) (hr : Reach cmp q) :
    is_heap cmp q.root = true ∧
    ∀ v, top q = .ok v → ∀ x ∈ elems q.root, cmp v x ≠ .ok true := by
  have hinv := reach_inv hasym hr
  simp only [QInvB, Bool.and_eq_true, beq_iff_eq] at hinv
  constructor
  · cases hq : q.root with
    | nil => rfl
    | node v c s =>
      have hst := hinv.1
      rw [hq] at hst
      cases s with
      | node x y z => simp [settled] at hst
      | nil => simpa [settled, is_heap] using hst
  · intro v hv x hx
    cases hq : q.root with
    | nil => simp [top, hq] at hv
    | node w c s =>
      simp only [top, hq, Except.ok.injEq] at hv
      subst hv
      have hst := hinv.1
      rw [hq] at hst
      rw [hq] at hx
      exact settled_root_max hasym hnt hst x hx

/-- Witness for C4: the queue reached by pushing 1 then 2. -/
theorem claim_C4_heap_order_w :
    is_heap cmpNat
        (⟨.node 2 (.node 1 .nil .nil) .nil, 2⟩ : priority_queue Nat).root = true ∧
    ∀ v, top (⟨.node 2 (.node 1 .nil .nil) .nil, 2⟩ : priority_queue Nat) = .ok v →
      ∀ x ∈ elems (⟨.node 2 (.node 1 .nil .nil) .nil, 2⟩ : priority_queue Nat).root,
        cmpNat v x ≠ .ok true :=
  claim_C4_heap_order cmpNat cmpNat_asym cmpNat_negtrans _
    (Reach.push_ok _ 2 _ (Reach.push_ok _ 1 _ Reach.init rfl) rfl)

/-- Claim C5: whenever the comparator throws inside `meld_nodes`, the error
state carries both input graphs unchanged (the call happens before any
pointer reassignment), and the propagated exception is the generic
`runtime_error`, whatever the comparator's own exception type `E`; the same
generic kind is the only error `compare_siblings` (a pure read) can return. -/
theorem claim_C5_comparator_throw (α E : Type) (cmp : Cmp α E) :
    (∀ (va : α) (ca sa : pq_tree α) (vb : α) (cb sb : pq_tree α) (e : E),
      cmp va vb = .error e →
      meld_nodes cmp (.node va ca sa) (.node vb cb sb) = .error .runtime_error ∧
      meld_nodesM cmp (.node va ca sa) (.node vb cb sb)
        = .error (.node va ca sa, .node vb cb sb)) ∧
    (∀ (t : pq_tree α) (r : PQError),
      compare_siblings cmp t = .error r → r = .runtime_error) ∧
    (∀ (a b : pq_tree α) (r : PQError),
      meld_nodes cmp a b = .error r → r = .runtime_error) := by
  refine ⟨?_, ?_, ?_⟩
  · intro va ca sa vb cb sb e h
    exact ⟨by simp [meld_nodes, h], by simp [meld_nodesM, h]⟩
  · intro t r h
    exact compare_siblings_error h
  · intro a b r h
    exact meld_nodes_error h

/-- Witness for C5 at the throwing pair of `cmpBug`. -/
theorem claim_C5_comparator_throw_w :
    cmpBug 3 5 = .error () ∧
    (meld_nodes cmpBug (.node 3 .nil .nil) (.node 5 .nil .nil)
        = .error .runtime_error ∧
      meld_nodesM cmpBug (.node 3 .nil .nil) (.node 5 .nil .nil)
        = .error (.node 3 .nil .nil, .node 5 .nil .nil)) :=
  ⟨rfl, (claim_C5_comparator_throw Nat Unit cmpBug).1 3 .nil .nil 5 .nil .nil () rfl⟩

/-- Claim C6: a successful `push` adds exactly the pushed element to the
queue's multiset and increments the count; a failed `push` signals the
generic `runtime_error` and leaves the queue exactly as it was (the count is
incremented only after the meld). -/
theorem claim_C6_push (cmp : Cmp α E) (q : priority_queue α) (e : α)
    (hs : sib_nil q.root = true) :
    (∀ q2, push cmp q e = (.ok (), q2) →
      elems q2.root = e ::ₘ elems q.root ∧ q2.raw_size = q.raw_size + 1) ∧
    (∀ er q2, push cmp q e = (.error er, q2) → er = .runtime_error ∧ q2 = q) := by
  constructor
  · intro q2 hp
    simp only [push] at hp
    cases hm : meld_nodes cmp q.root (.node e .nil .nil) with
    | error er => simp [hm] at hp
    | ok r =>
      simp only [hm, Prod.mk.injEq] at hp
      obtain ⟨-, hq2⟩ := hp
      subst hq2
      refine ⟨?_, rfl⟩
      have he := meld_elems_sibnil hs (by rfl) hm
      rw [he]
      simp only [elems, add_zero, ← Multiset.singleton_add]
      abel
  · intro er q2 hp
    simp only [push] at hp
    cases hm : meld_nodes cmp q.root (.node e .nil .nil) with
    | error er2 =>
      simp only [hm, Prod.mk.injEq] at hp
      obtain ⟨h1, h2⟩ := hp
      simp only [Except.error.injEq] at h1
      exact ⟨h1.symm, h2.symm⟩
    | ok r => simp [hm] at hp

/-- Witness for C6: pushing 2 onto the singleton queue holding 1. -/
theorem claim_C6_push_w :
    sib_nil (⟨.node 1 .nil .nil, 1⟩ : priority_queue Nat).root = true ∧
    (elems (⟨.node 2 (.node 1 .nil .nil) .nil, 2⟩ : priority_queue Nat).root
        = 2 ::ₘ elems (⟨.node 1 .nil .nil, 1⟩ : priority_queue Nat).root ∧
      (⟨.node 2 (.node 1 .nil .nil) .nil, 2⟩ : priority_queue Nat).raw_size
        = (⟨.node 1 .nil .nil, 1⟩ : priority_queue Nat).raw_size + 1) :=
  ⟨rfl, (claim_C6_push cmpNat ⟨.node 1 .nil .nil, 1⟩ 2 rfl).1 _ rfl⟩

/-- Claim C7: `top` and `pop` on an empty queue signal `container_is_empty`
with no state change; a default-constructed queue is empty with size 0; and
`top` on a non-empty queue returns the root's value without side effects. -/
theorem claim_C7_empty_queue (cmp : Cmp α E) :
    (∀ q : priority_queue α, q.root = .nil →
      top q = .error .container_is_empty ∧
      pop cmp q = (.error .container_is_empty, q)) ∧
    (empty (mk_default : priority_queue α) = true ∧
      size (mk_default : priority_queue α) = 0) ∧
    (∀ (q : priority_queue α) (v : α) (c s : pq_tree α),
      q.root = .node v c s → top q = .ok v) := by
  refine ⟨?_, ⟨rfl, rfl⟩, ?_⟩
  · intro q hq
    exact ⟨by simp [top, hq], by simp [pop, hq]⟩
  · intro q v c s hq
    simp [top, hq]

/-- Witness for C7 at the default-constructed queue. -/
theorem claim_C7_empty_queue_w :
    top (mk_default : priority_queue Nat) = .error .container_is_empty ∧
    pop cmpNat (mk_default : priority_queue Nat)
      = (.error .container_is_empty, mk_default) :=
  (claim_C7_empty_queue cmpNat).1 mk_default rfl

/-- Claim C8: `recursive_dup` is a structural clone (same values and shape),
its allocation semantics place every node of the duplicate at a fresh address
at or above the watermark `n` — hence disjoint from every address of the
original, which all lie below `n` — and both copy construction and copy
assignment from a non-empty source install exactly such an independent
duplicate together with the source's count. -/
theorem claim_C8_deep_copy (α : Type) (t : pq_tree α) (n : Nat)
    (dst src : priority_queue α) (h : src.root ≠ .nil) :
    recursive_dup t = t ∧
    strip (recursive_dupA t n).1 = t ∧
    (∀ a ∈ addrsA (recursive_dupA t n).1, n ≤ a) ∧
    (∀ a ∈ addrsA (recursive_dupA t n).1, ∀ b, b < n → a ≠ b) ∧
    copy_construct src = some ⟨src.root, src.raw_size⟩ ∧
    copy_assign dst src = some ⟨src.root, src.raw_size⟩ := by
  obtain ⟨h1, h2, h3⟩ := recursive_dupA_spec t n
  refine ⟨recursive_dup_id t, h1, fun a ha => (h3 a ha).1, ?_, ?_, ?_⟩
  · intro a ha b hb
    have := (h3 a ha).1
    omega
  · cases hsrc : src.root with
    | nil => exact absurd hsrc h
    | node v c s => simp [copy_construct, hsrc, recursive_dup_id]
  · cases hsrc : src.root with
    | nil => exact absurd hsrc h
    | node v c s =>
      cases hdst : dst.root with
      | nil => simp [copy_assign, hsrc, hdst, recursive_dup_id]
      | node x y z => simp [copy_assign, hsrc, hdst, recursive_dup_id]

/-- Witness for C8 at a concrete tree and watermark. -/
theorem claim_C8_deep_copy_w :
    (⟨.node 7 .nil .nil, 1⟩ : priority_queue Nat).root ≠ .nil ∧
    (recursive_dup (pq_tree.node 7 .nil .nil : pq_tree Nat) = .node 7 .nil .nil ∧
      strip (recursive_dupA (pq_tree.node 7 .nil .nil : pq_tree Nat) 5).1
        = .node 7 .nil .nil ∧
      (∀ a ∈ addrsA (recursive_dupA (pq_tree.node 7 .nil .nil : pq_tree Nat) 5).1,
        5 ≤ a) ∧
      (∀ a ∈ addrsA (recursive_dupA (pq_tree.node 7 .nil .nil : pq_tree Nat) 5).1,
        ∀ b, b < 5 → a ≠ b) ∧
      copy_construct (⟨.node 7 .nil .nil, 1⟩ : priority_queue Nat)
        = some ⟨.node 7 .nil .nil, 1⟩ ∧
      copy_assign (⟨.nil, 0⟩ : priority_queue Nat) ⟨.node 7 .nil .nil, 1⟩
        = some ⟨.node 7 .nil .nil, 1⟩) :=
  ⟨by decide,
    claim_C8_deep_copy Nat (.node 7 .nil .nil) 5 ⟨.nil, 0⟩ ⟨.node 7 .nil .nil, 1⟩
      (by decide)⟩

/-- Claim C9 (refuted; the code contradicts its own exception-safety doc):
the size invariant does hold along successful operations, but a `pop` whose
merge pass throws breaks it: on `q_bug` (invariant holds, 4 nodes, count 4)
`pop` under `cmpBug` fails with the generic `runtime_error` yet leaves a
state with only 3 reachable nodes while the count still says 4. -/
theorem claim_C9_failed_pop_breaks_invariant :
    QInvB cmpBug q_bug = true ∧
    pop cmpBug q_bug = (.error .runtime_error, q_bug_after) ∧
    tsize q_bug_after.root = 3 ∧ q_bug_after.raw_size = 4 ∧
    QInvB cmpBug q_bug_after = false :=
  ⟨rfl, rfl, rfl, rfl, rfl⟩

/-- Claim C10: copy construction never dereferences a null source (the guard
catches the empty-source case because the destination's root member is still
null), copy assignment is safe whenever the source is non-empty or both roots
are the same (null) pointer, and the non-empty-source hypothesis is necessary
for assignment onto a distinct non-empty destination: there the source's null
root is dereferenced. -/
theorem claim_C10_copy_precondition (α : Type) (dst src : priority_queue α) :
    (src.root ≠ .nil →
      (copy_assign dst src).isSome = true ∧ (copy_construct src).isSome = true) ∧
    (dst.root = .nil → src.root = .nil → copy_assign dst src = some dst) ∧
    (src.root = .nil → copy_construct src = some ⟨.nil, 0⟩) ∧
    (dst.root ≠ .nil → src.root = .nil → copy_assign dst src = none) := by
  refine ⟨?_, ?_, ?_, ?_⟩
  · intro h
    cases hsrc : src.root with
    | nil => exact absurd hsrc h
    | node v c s =>
      cases hdst : dst.root with
      | nil => simp [copy_assign, copy_construct, hsrc, hdst]
      | node x y z => simp [copy_assign, copy_construct, hsrc, hdst]
  · intro hd hsrc
    simp [copy_assign, hd, hsrc]
  · intro hsrc
    simp [copy_construct, hsrc]
  · intro hd hsrc
    cases hdst : dst.root with
    | nil => exact absurd hdst hd
    | node x y z => simp [copy_assign, hdst, hsrc]

/-- Witness for C10: assigning an empty source onto a non-empty destination
hits the null dereference. -/
theorem claim_C10_copy_precondition_w :
    (⟨.node 1 .nil .nil, 1⟩ : priority_queue Nat).root ≠ .nil ∧
    (⟨.nil, 0⟩ : priority_queue Nat).root = .nil ∧
    copy_assign (⟨.node 1 .nil .nil, 1⟩ : priority_queue Nat) ⟨.nil, 0⟩ = none :=
  ⟨by decide, rfl,
    (claim_C10_copy_precondition Nat ⟨.node 1 .nil .nil, 1⟩ ⟨.nil, 0⟩).2.2.2
      (by decide) rfl⟩

end sjtu
